import Mathlib

/-!
Verification development for the quiz-diagnosis / video-recommendation
system (FastAPI backend plus indexing pipeline).

The Lean definitions below are shallow embeddings of the pure
computational cores of:
  backend/app/quiz.py        (submit_quiz: scoring, pillar analysis,
                              learner profile, search-query building)
  backend/app/ai_coach.py    (generate_smart_search_query fallbacks)
  backend/app/search_engine.py (find_best_video, _execute_search,
                              _format_and_deduplicate_results)
  data_factory/processors/chunker.py (chunk_transcript)

Python floats are modelled as exact rationals (ℚ); the real-valued
exponential relevance formula is modelled over ℝ.  Python dicts are
modelled as association lists preserving insertion order, which is
exactly the iteration order CPython guarantees.
-/

/-! ## Diagnosis engine: data model (backend/app/models.py) -/

/-- An answer of a quiz submission (models.py `QuestionAnswer`). -/
structure QuestionAnswer where
  question_id : String
  selected_option_id : String
  time_taken_seconds : ℤ
deriving DecidableEq

/-- A quiz submission (models.py `QuizSubmission`). -/
structure QuizSubmission where
  topic_id : String
  answers : List QuestionAnswer
  total_time_seconds : ℤ
deriving DecidableEq

/-- The fields of a question-bank document that `submit_quiz` reads.
Other stored fields (question_text, options, explanation, difficulty)
never influence the diagnosis and are omitted. -/
structure QuestionDoc where
  correct_option_id : String
  diagnosis_pillar : String
  ideal_time_seconds : ℤ
  search_tags : List String
deriving DecidableEq

/-- The question bank restricted to the ids of the submission
(`questions_map` in quiz.py, a dict from stringified id to document),
modelled as an association list with unique keys. -/
abbrev QuestionsMap := List (String × QuestionDoc)

/-! ## Diagnosis engine: phase 1 scoring (quiz.py lines 172-233) -/

/-- Per-pillar accumulator (`pillar_stats[pillar]` in quiz.py):
correct count, total count, rushed count and the list of per-answer
time ratios (Python key "time_ratio"). -/
structure PillarStats where
  correct : ℕ
  total : ℕ
  rushed : ℕ
  ratios : List ℚ
deriving DecidableEq

/-- The zero accumulator `{"correct": 0, "total": 0, "rushed": 0, "time_ratio": []}`. -/
def emptyStats : PillarStats := ⟨0, 0, 0, []⟩

/-- The five canonical pillars in the order of the `DiagnosisPillar`
enum (models.py lines 27-33); quiz.py initialises `pillar_stats` with
exactly these keys in this order. -/
def canonicalPillars : List String :=
  ["Concept", "Implementation", "Complexity", "Debugging", "Application"]

/-- Initial `pillar_stats` dict: one zero accumulator per canonical pillar. -/
def initPillarStats : List (String × PillarStats) :=
  canonicalPillars.map (fun p => (p, emptyStats))

/-- `answer.time_taken_seconds / ideal_time if ideal_time > 0 else 1`
(quiz.py line 201). -/
def timeRatioOf (a : QuestionAnswer) (q : QuestionDoc) : ℚ :=
  if 0 < q.ideal_time_seconds
  then (a.time_taken_seconds : ℚ) / (q.ideal_time_seconds : ℚ)
  else 1

/-- Update the accumulator stored under key `p`, inserting a zero
accumulator first when the key is absent (quiz.py lines 203-205: the
dynamic init appends the new pillar at the end of the dict, lines
207-219 then mutate it in place). -/
def updateStats : List (String × PillarStats) → String → (PillarStats → PillarStats) →
    List (String × PillarStats)
  | [], p, f => [(p, f emptyStats)]
  | (k, v) :: rest, p, f =>
    if k = p then (k, f v) :: rest else (k, v) :: updateStats rest p f

/-- State threaded through the scoring loop of `submit_quiz`:
the running score, the `pillar_stats` dict and the `failed_questions`
list (in order of failure). -/
structure ScoringState where
  score : ℕ
  stats : List (String × PillarStats)
  failed : List QuestionDoc
deriving DecidableEq

/-- One iteration of the scoring loop (quiz.py lines 190-219):
an answer whose question id is not in `questions_map` is skipped;
otherwise the pillar accumulator, score and failed-question list are
updated.  An answer is rushed when its time ratio is below 0.3. -/
def scoreAnswer (qmap : QuestionsMap) (st : ScoringState) (a : QuestionAnswer) :
    ScoringState :=
  match List.lookup a.question_id qmap with
  | none => st
  | some q =>
    let isCorrect : Bool := a.selected_option_id = q.correct_option_id
    let r := timeRatioOf a q
    { score := st.score + (if isCorrect then 1 else 0)
      stats := updateStats st.stats q.diagnosis_pillar (fun s =>
        { correct := s.correct + (if isCorrect then 1 else 0)
          total := s.total + 1
          rushed := s.rushed + (if r < 0.3 then 1 else 0)
          ratios := s.ratios ++ [r] })
      failed := st.failed ++ (if isCorrect then [] else [q]) }

/-- The whole phase-1 scoring pass. -/
def runScoring (answers : List QuestionAnswer) (qmap : QuestionsMap) : ScoringState :=
  answers.foldl (scoreAnswer qmap) ⟨0, initPillarStats, []⟩

/-- `percentage = (score / total_questions) * 100 if total_questions > 0 else 0`
(quiz.py line 233) — the denominator is the number of submitted answers. -/
def percentageOf (answers : List QuestionAnswer) (qmap : QuestionsMap) : ℚ :=
  if answers.length ≠ 0
  then ((runScoring answers qmap).score : ℚ) / (answers.length : ℚ) * 100
  else 0

/-- Number of answers whose question id resolves against the question bank. -/
def resolvableCount (answers : List QuestionAnswer) (qmap : QuestionsMap) : ℕ :=
  (answers.filter (fun a => (List.lookup a.question_id qmap).isSome)).length

/-- Sum of the `total` counters over all pillar accumulators. -/
def sumTotals (stats : List (String × PillarStats)) : ℕ :=
  (stats.map (fun x => x.2.total)).sum

/-! ## Diagnosis engine: phase 2 pillar analysis (quiz.py lines 239-263) -/

/-- Mean of a list of rationals (`sum(...) / len(...)`); only ever
applied to non-empty lists by the source. -/
def listMean (l : List ℚ) : ℚ := l.sum / (l.length : ℚ)

/-- Rounding to one decimal place (`round(accuracy, 1)`).  Python
rounds its binary floats half-to-even; on the exact rationals used
here this is modelled with Mathlib's `round` — no property proved
below depends on the behaviour at exact ties. -/
def round1 (x : ℚ) : ℚ := ((round (10 * x) : ℤ) : ℚ) / 10

/-- Rounding to two decimal places (`round(avg_time_ratio, 2)`). -/
def round2 (x : ℚ) : ℚ := ((round (100 * x) : ℤ) : ℚ) / 100

/-- One entry of `pillar_breakdown` (quiz.py lines 246-252). -/
structure BreakdownEntry where
  pillar : String
  correct : ℕ
  total : ℕ
  accuracy : ℚ
  rushed_count : ℕ
  time_ratio_mean : ℚ
deriving DecidableEq

/-- `pillar_breakdown`: every accumulator with `total > 0`, in dict
iteration order, with rounded accuracy and mean time ratio
(quiz.py lines 241-252). -/
def pillarBreakdown (answers : List QuestionAnswer) (qmap : QuestionsMap) :
    List BreakdownEntry :=
  (runScoring answers qmap).stats.filterMap (fun x =>
    if 0 < x.2.total then
      some { pillar := x.1
             correct := x.2.correct
             total := x.2.total
             accuracy := round1 ((x.2.correct : ℚ) / (x.2.total : ℚ) * 100)
             rushed_count := x.2.rushed
             time_ratio_mean := round2 (listMean x.2.ratios) }
    else none)

/-- The weakest-pillar selection loop (quiz.py lines 256-261),
threading the pair (weakest_pillar, lowest_accuracy). -/
def selectWeakest : List BreakdownEntry → String × ℚ → String × ℚ
  | [], acc => acc
  | e :: rest, (w, lo) =>
    if 1 ≤ e.total ∧ e.accuracy < lo
    then selectWeakest rest (e.pillar, e.accuracy)
    else selectWeakest rest (w, lo)

/-- `weakest_pillar`, starting from the default "Concept" and the
initial threshold `lowest_accuracy = 100`. -/
def weakestPillar (bd : List BreakdownEntry) : String :=
  (selectWeakest bd ("Concept", 100)).1

/-- Key list of the `pillar_stats` dict in iteration order. -/
def statKeys (answers : List QuestionAnswer) (qmap : QuestionsMap) : List String :=
  (runScoring answers qmap).stats.map (fun x => x.1)

/-- Dict-key insertion: an already-present key leaves the order
untouched, a new key is appended. -/
def addKey (ks : List String) (p : String) : List String :=
  if p ∈ ks then ks else ks ++ [p]

/-- The pillar names of the resolvable answers, in submission order. -/
def resolvedPillars (answers : List QuestionAnswer) (qmap : QuestionsMap) : List String :=
  answers.filterMap (fun a => (List.lookup a.question_id qmap).map (fun q => q.diagnosis_pillar))

/-! ## Diagnosis engine: phase 3 learner profile (quiz.py lines 270-283) -/

/-- `avg_time_ratio`: mean over the pillars with at least one recorded
ratio of each pillar's mean ratio, with a `max 1` guard on the
denominator (quiz.py lines 270-273). -/
def avgTimeROf (answers : List QuestionAnswer) (qmap : QuestionsMap) : ℚ :=
  let nonempty := (runScoring answers qmap).stats.filter (fun x => x.2.ratios ≠ [])
  (nonempty.map (fun x => listMean x.2.ratios)).sum / (max 1 nonempty.length : ℕ)

/-- `rushed_percentage` (quiz.py lines 275-276). -/
def rushedPercentageOf (answers : List QuestionAnswer) (qmap : QuestionsMap) : ℚ :=
  let totalRushed := ((runScoring answers qmap).stats.map (fun x => x.2.rushed)).sum
  if answers.length ≠ 0 then ((totalRushed : ℚ) / (answers.length : ℚ)) * 100 else 0

/-- The learner-profile classification rule (quiz.py lines 278-283),
evaluated in order. -/
def learnerProfile (percentage rushed_percentage avg_time_r : ℚ) : String :=
  if 70 ≤ percentage then "High Achiever"
  else if 40 < rushed_percentage ∨ avg_time_r < 0.6 then "Rushed"
  else "Struggling"

/-- The profile reported for a submission, tying phase 3 together. -/
def learnerProfileOf (answers : List QuestionAnswer) (qmap : QuestionsMap) : String :=
  learnerProfile (percentageOf answers qmap) (rushedPercentageOf answers qmap)
    (avgTimeROf answers qmap)

/-! ## Diagnosis engine: phase 4 search-query construction
(quiz.py lines 298-323 and ai_coach.py generate_smart_search_query) -/

/-- `failed_tags`: the search tags of the failed questions, extended in
order of failure (quiz.py lines 299-301). -/
def failedTagsOf (answers : List QuestionAnswer) (qmap : QuestionsMap) : List String :=
  ((runScoring answers qmap).failed.map (fun q => q.search_tags)).flatten

/-- What `list(set(raw))` produces: some list with no duplicates and
exactly the members of `raw`.  CPython's set iteration order is not
the order of first insertion, so the order of the result is
unspecified; every property below therefore quantifies over all lists
satisfying this predicate. -/
def isSetDedupOf (uniq raw : List String) : Prop :=
  uniq.Nodup ∧ (∀ t ∈ uniq, t ∈ raw) ∧ (∀ t ∈ raw, t ∈ uniq)

/-- The tag-based query of quiz.py lines 312-319, taking the already
computed `unique_failed_tags` list (at most 5 entries) as input:
`f"{primary_concept} {other_concepts} {topic_name} {weakest_pillar}
tutorial explained step by step"` where `primary_concept` is the first
tag and `other_concepts` joins tags 2 and 3.  The `[]` case never
arises: the caller guards on a non-empty tag list. -/
def buildSearchQuery (uniq5 : List String) (topic pillar : String) : String :=
  match uniq5 with
  | [] => ""
  | primary :: rest =>
    primary ++ " " ++ String.intercalate " " (rest.take 2) ++ " " ++ topic ++ " " ++
      pillar ++ " tutorial explained step by step"

/-- The query selection of quiz.py lines 312-323: the tag-based query
when `unique_failed_tags` (the set-deduplicated failed tags capped at
5) is non-empty, otherwise the string produced by the external
generative service (`generate_smart_search_query`), passed in as
`aiQuery` since that call leaves the pure core. -/
def searchQueryOf (uniq : List String) (topic pillar aiQuery : String) : String :=
  if uniq.take 5 ≠ [] then buildSearchQuery (uniq.take 5) topic pillar else aiQuery

/-- ai_coach.py line 85: the fallback of `generate_smart_search_query`
when no API key is configured (`model` is None):
`f"{topic} tutorial {learner_profile}"`. -/
def smartQueryNoModel (topic learner_profile : String) : String :=
  topic ++ " tutorial " ++ learner_profile

/-- ai_coach.py lines 90-95: the pillar-to-style mapping used by
`generate_smart_search_query`. -/
def stylePreferenceFor (weak_tags : List String) : String :=
  if "Concept" ∈ weak_tags then "Whiteboard animation logic visualization"
  else if "Implementation" ∈ weak_tags then "Live coding implementation tutorial python java"
  else if "Complexity" ∈ weak_tags then "Big-O time complexity analysis optimization"
  else if "Debugging" ∈ weak_tags then "Common mistakes debugging guide fix errors"
  else if "Application" ∈ weak_tags then "Real world application system design interview question"
  else ""

/-- ai_coach.py line 128: the fallback of `generate_smart_search_query`
when the service call raises: `f"{topic} {style_preference}"` when a
style preference matched, else `f"{topic} tutorial"`. -/
def smartQueryOnError (topic : String) (weak_tags : List String) : String :=
  if stylePreferenceFor weak_tags ≠ ""
  then topic ++ " " ++ stylePreferenceFor weak_tags
  else topic ++ " tutorial"

/-! ## Retrieval engine (backend/app/search_engine.py)

The second definition of `find_best_video` (lines 173-196) shadows the
first one in Python, so the active entry point is that second
definition together with `_execute_search` (lines 198-227) and
`_format_and_deduplicate_results` (lines 229-286). -/

/-- One formatted search result (the dict built at search_engine.py
lines 256-268).  `relevance_percent` carries the rounded relevance
score; the metadata echo fields that never influence deduplication,
sorting or fallback (description, links, thumbnail, score, distance)
are represented by `title` alone.  `note` is the relaxed-match marker,
absent in every freshly formatted result. -/
structure SearchResult where
  video_id : String
  title : String
  relevance_percent : ℚ
  note : Option String := none
deriving DecidableEq

/-- The dict-based deduplication step (search_engine.py lines 271-275):
`if vid not in seen_videos or result["relevance_percent"] >
seen_videos[vid]["relevance_percent"]: seen_videos[vid] = result`.
Replacing a value keeps the key's position; a new key is appended. -/
def upsertBest : List SearchResult → SearchResult → List SearchResult
  | [], r => [r]
  | a :: rest, r =>
    if a.video_id = r.video_id
    then (if a.relevance_percent < r.relevance_percent then r else a) :: rest
    else a :: upsertBest rest r

/-- `seen_videos` after the whole first pass, as the ordered value list
`list(seen_videos.values())`. -/
def dedupByVideo (l : List SearchResult) : List SearchResult :=
  l.foldl upsertBest []

/-- Descending relevance, the sort order of
`unique_results.sort(key=lambda x: x['relevance_percent'], reverse=True)`. -/
def relOrder (a b : SearchResult) : Prop :=
  b.relevance_percent ≤ a.relevance_percent

instance : DecidableRel relOrder :=
  fun a b => inferInstanceAs (Decidable (b.relevance_percent ≤ a.relevance_percent))

instance : IsTotal SearchResult relOrder :=
  ⟨fun a b => le_total b.relevance_percent a.relevance_percent⟩

instance : IsTrans SearchResult relOrder :=
  ⟨fun _ _ _ hab hbc => le_trans hbc hab⟩

/-- Sorting by descending relevance.  Python's list sort is stable;
no property below depends on the order of equal-relevance entries, so
insertion sort is used. -/
def sortByRelevance (l : List SearchResult) : List SearchResult :=
  List.insertionSort relOrder l

/-- `_format_and_deduplicate_results` after the formatting pass:
deduplicate by video id keeping the best match, then sort by relevance
descending (search_engine.py lines 270-286).  No truncation happens
here or in the callers. -/
def dedupAndSort (l : List SearchResult) : List SearchResult :=
  sortByRelevance (dedupByVideo l)

/-- The note attached to the top result of a successful relaxed retry
(search_engine.py line 193). -/
def relaxedNote : String := "Showing best available match (exact filters not found)"

/-- `find_best_video` (search_engine.py lines 173-196) as a function of
the outcomes of its two `_execute_search` calls: `strict` is the result
list of the filtered search, `relaxed` the result list of the
filter-free retry.  `if result:` is Python truthiness on a list, i.e.
a non-emptiness test. -/
def findBestVideo (strict relaxed : List SearchResult) : List SearchResult :=
  if strict ≠ [] then strict
  else
    match relaxed with
    | [] => []
    | r :: rs => { r with note := some relaxedNote } :: rs

/-! ## Relevance formula (search_engine.py line 254) -/

/-- `relevance_percent = 100 * math.exp(-distance * 0.5)` over the
reals; the value is rounded to one decimal only when stored into the
result dict (line 265). -/
noncomputable def relevancePercent (d : ℝ) : ℝ := 100 * Real.exp (-d * 0.5)

/-! ## Transcript chunker (data_factory/processors/chunker.py) -/

/-- `MIN_CHUNK_TEXT_LENGTH = 50` (chunker.py line 23). -/
def MIN_CHUNK_TEXT_LENGTH : ℕ := 50

/-- `DEFAULT_CHUNK_SIZE_MINUTES = 5` (chunker.py line 22). -/
def DEFAULT_CHUNK_SIZE_MINUTES : ℚ := 5

/-- One transcript segment from the YouTube API:
`{'text': str, 'start': float, 'duration': float}`. -/
structure TSegment where
  text : String
  start : ℚ
  duration : ℚ
deriving DecidableEq

/-- One finalized chunk (chunker.py docstring lines 45-50). -/
structure TChunk where
  start_time : ℚ
  end_time : ℚ
  text_content : String
  duration : ℚ
deriving DecidableEq

/-- The in-progress chunk: its start/end offsets and the stripped
segment texts accumulated so far (the temporary "segments" key). -/
structure CurChunk where
  start_time : ℚ
  end_time : ℚ
  segments : List String
deriving DecidableEq

/-- The loop body of `chunk_transcript` (chunker.py lines 65-93): add
the stripped segment text, extend the end offset, and when the chunk
duration reaches the target finalize it — appending it to the output
only when its concatenated text has at least `MIN_CHUNK_TEXT_LENGTH`
characters — and start a fresh chunk at the segment's end offset. -/
def chunkStep (css : ℚ) (st : List TChunk × CurChunk) (seg : TSegment) :
    List TChunk × CurChunk :=
  let segEnd := seg.start + seg.duration
  let cur : CurChunk :=
    { start_time := st.2.start_time
      end_time := segEnd
      segments := st.2.segments ++ [seg.text.trim] }
  let dur := cur.end_time - cur.start_time
  if css ≤ dur then
    let text := String.intercalate " " cur.segments
    let chunks :=
      if MIN_CHUNK_TEXT_LENGTH ≤ text.length
      then st.1 ++ [⟨cur.start_time, cur.end_time, text, dur⟩]
      else st.1
    (chunks, ⟨segEnd, segEnd, []⟩)
  else (st.1, cur)

/-- The final flush of `chunk_transcript` (chunker.py lines 95-102): a
non-empty partial chunk is concatenated and appended under the same
minimum-length guard as the loop. -/
def flushChunks (res : List TChunk × CurChunk) : List TChunk :=
  if res.2.segments ≠ [] then
    let text := String.intercalate " " res.2.segments
    if MIN_CHUNK_TEXT_LENGTH ≤ text.length
    then res.1 ++ [⟨res.2.start_time, res.2.end_time, text,
      res.2.end_time - res.2.start_time⟩]
    else res.1
  else res.1

/-- `chunk_transcript` (chunker.py lines 30-104): empty transcripts
yield no chunks; otherwise the loop above runs over every segment
starting from the first segment's start offset, and the remaining
partial chunk is flushed. -/
def chunk_transcript (transcript_list : List TSegment)
    (chunk_size_minutes : ℚ := DEFAULT_CHUNK_SIZE_MINUTES) : List TChunk :=
  match transcript_list with
  | [] => []
  | s0 :: _ =>
    let css := chunk_size_minutes * 60
    flushChunks (transcript_list.foldl (chunkStep css) ([], ⟨s0.start, 0, []⟩))

/-! ## Theorems -/

/-- If no breakdown entry is eligible with accuracy strictly below the
running threshold, the selection loop leaves its state unchanged. -/
theorem selectWeakest_const (bd : List BreakdownEntry) (w : String) (lo : ℚ)
    (h : ∀ e ∈ bd, 1 ≤ e.total → lo ≤ e.accuracy) :
    selectWeakest bd (w, lo) = (w, lo) := by
  induction bd with
  | nil => rfl
  | cons e rest ih =>
    have hcond : ¬(1 ≤ e.total ∧ e.accuracy < lo) := by
      rintro ⟨ht, hacc⟩
      exact absurd (h e (List.mem_cons_self e rest) ht) (not_le.mpr hacc)
    simp only [selectWeakest, if_neg hcond]
    exact ih (fun f hf => h f (List.mem_cons_of_mem e hf))

/-- C1: the learner profile is decided from (percentage,
rushed_percentage, avg_time_ratio) by the ordered rule: percentage ≥ 70
gives "High Achiever" regardless of the other two inputs; otherwise
rushed_percentage > 40 or avg_time_ratio < 0.6 gives "Rushed";
otherwise "Struggling". -/
theorem learner_profile_rule_order (p r a : ℚ) :
    (70 ≤ p → learnerProfile p r a = "High Achiever") ∧
    (p < 70 → (40 < r ∨ a < 0.6) → learnerProfile p r a = "Rushed") ∧
    (p < 70 → r ≤ 40 → 0.6 ≤ a → learnerProfile p r a = "Struggling") := by
  unfold learnerProfile
  refine ⟨fun h => by rw [if_pos h], fun h1 h2 => ?_, fun h1 h2 h3 => ?_⟩
  · rw [if_neg (not_le.mpr h1), if_pos h2]
  · rw [if_neg (not_le.mpr h1), if_neg]
    push_neg
    exact ⟨h2, h3⟩

/-- Witness for C1: all three branches at concrete inputs. -/
theorem learner_profile_rule_order_witness :
    ((70:ℚ) ≤ 80 ∧ learnerProfile 80 50 2 = "High Achiever") ∧
    ((30:ℚ) < 70 ∧ (40:ℚ) < 50 ∧ learnerProfile 30 50 2 = "Rushed") ∧
    ((30:ℚ) < 70 ∧ (10:ℚ) ≤ 40 ∧ (0.6:ℚ) ≤ 1 ∧ learnerProfile 30 10 1 = "Struggling") :=
  ⟨⟨by norm_num, (learner_profile_rule_order 80 50 2).1 (by norm_num)⟩,
   ⟨by norm_num, by norm_num,
    (learner_profile_rule_order 30 50 2).2.1 (by norm_num) (Or.inl (by norm_num))⟩,
   ⟨by norm_num, by norm_num, by norm_num,
    (learner_profile_rule_order 30 10 1).2.2 (by norm_num) (by norm_num) (by norm_num)⟩⟩

/-- C10: when every breakdown entry with total ≥ 1 reports accuracy
exactly 100, the strict `<` comparison against the initial threshold
100 never fires, so the default "Concept" is reported — even when no
Concept entry exists in the breakdown. -/
theorem weakest_pillar_default_on_perfect (bd : List BreakdownEntry)
    (h : ∀ e ∈ bd, 1 ≤ e.total → e.accuracy = 100) :
    weakestPillar bd = "Concept" := by
  unfold weakestPillar
  rw [selectWeakest_const bd "Concept" 100 (fun e he ht => (h e he ht).ge)]

/-- Witness for C10: a breakdown whose only pillar is a perfect
Implementation pillar — no Concept questions were answered, yet the
reported weakest pillar is "Concept". -/
theorem weakest_pillar_default_on_perfect_witness :
    (∀ e ∈ [BreakdownEntry.mk "Implementation" 1 1 100 0 1], 1 ≤ e.total → e.accuracy = 100) ∧
    "Concept" ∉ ([BreakdownEntry.mk "Implementation" 1 1 100 0 1].map BreakdownEntry.pillar) ∧
    weakestPillar [BreakdownEntry.mk "Implementation" 1 1 100 0 1] = "Concept" :=
  ⟨by decide, by decide, weakest_pillar_default_on_perfect _ (by decide)⟩

/-- C3: the relevance formula 100·e^(−0.5·d) lies in (0, 100] for every
distance d ≥ 0 and is strictly decreasing in the distance. -/
theorem relevance_decay_bounds_mono (d₁ d₂ : ℝ) (h0 : 0 ≤ d₁) :
    (0 < relevancePercent d₁ ∧ relevancePercent d₁ ≤ 100) ∧
    (d₁ < d₂ → relevancePercent d₂ < relevancePercent d₁) := by
  unfold relevancePercent
  constructor
  · constructor
    · positivity
    · have h1 : Real.exp (-d₁ * 0.5) ≤ 1 := by
        calc Real.exp (-d₁ * 0.5) ≤ Real.exp 0 := Real.exp_le_exp.mpr (by nlinarith)
        _ = 1 := Real.exp_zero
      linarith
  · intro hlt
    have h2 : Real.exp (-d₂ * 0.5) < Real.exp (-d₁ * 0.5) :=
      Real.exp_lt_exp.mpr (by nlinarith)
    linarith

/-- Witness for C3 at distances 0 and 1. -/
theorem relevance_decay_bounds_mono_witness :
    (0 < relevancePercent 0 ∧ relevancePercent 0 ≤ 100) ∧
    ((0:ℝ) < 1 → relevancePercent 1 < relevancePercent 0) :=
  relevance_decay_bounds_mono 0 1 (le_refl 0)

/-- C2 counterexample: a breakdown whose only pillar is eligible
(total ≥ 1) and therefore the eligible pillar of lowest accuracy, yet
it is not selected: its accuracy 100 does not pass the strict `<`
comparison against the initial threshold 100, so the default "Concept"
wins. -/
theorem weakest_pillar_perfect_accuracy_cex :
    1 ≤ (BreakdownEntry.mk "Implementation" 2 2 100 0 1).total ∧
    weakestPillar [BreakdownEntry.mk "Implementation" 2 2 100 0 1] = "Concept" ∧
    weakestPillar [BreakdownEntry.mk "Implementation" 2 2 100 0 1] ≠ "Implementation" := by
  decide

/-- Full characterization of the weakest-pillar loop from an arbitrary
running state (w, lo): either no eligible entry beats the threshold
and the state is returned unchanged, or the result is the first
eligible entry attaining the minimum accuracy among eligible entries
below the threshold. -/
theorem selectWeakest_char (bd : List BreakdownEntry) (w : String) (lo : ℚ) :
    ((∀ e ∈ bd, 1 ≤ e.total → lo ≤ e.accuracy) ∧ selectWeakest bd (w, lo) = (w, lo)) ∨
    (∃ pre e post, bd = pre ++ e :: post ∧ 1 ≤ e.total ∧ e.accuracy < lo ∧
      (∀ f ∈ pre, 1 ≤ f.total → e.accuracy < f.accuracy) ∧
      (∀ f ∈ post, 1 ≤ f.total → e.accuracy ≤ f.accuracy) ∧
      selectWeakest bd (w, lo) = (e.pillar, e.accuracy)) := by
  induction bd generalizing w lo with
  | nil => exact Or.inl ⟨by simp, rfl⟩
  | cons e₀ rest ih =>
    by_cases hc : 1 ≤ e₀.total ∧ e₀.accuracy < lo
    · rcases ih e₀.pillar e₀.accuracy with ⟨hall, heq⟩ |
        ⟨pre, e, post, hsplit, ht, hacc, hpre, hpost, heq⟩
      · refine Or.inr ⟨[], e₀, rest, by simp, hc.1, hc.2, by simp, ?_, ?_⟩
        · exact fun f hf hft => hall f hf hft
        · simp only [selectWeakest, if_pos hc]
          exact heq
      · refine Or.inr ⟨e₀ :: pre, e, post, by rw [hsplit]; rfl, ht,
          lt_trans hacc hc.2, ?_, hpost, ?_⟩
        · intro f hf hft
          rcases List.mem_cons.mp hf with rfl | hf'
          · exact hacc
          · exact hpre f hf' hft
        · simp only [selectWeakest, if_pos hc]
          exact heq
    · rcases ih w lo with ⟨hall, heq⟩ |
        ⟨pre, e, post, hsplit, ht, hacc, hpre, hpost, heq⟩
      · refine Or.inl ⟨?_, ?_⟩
        · intro f hf hft
          rcases List.mem_cons.mp hf with rfl | hf'
          · by_contra hlt
            exact hc ⟨hft, not_le.mp hlt⟩
          · exact hall f hf' hft
        · simp only [selectWeakest, if_neg hc]
          exact heq
      · refine Or.inr ⟨e₀ :: pre, e, post, by rw [hsplit]; rfl, ht, hacc, ?_, hpost, ?_⟩
        · intro f hf hft
          rcases List.mem_cons.mp hf with rfl | hf'
          · have hlo : lo ≤ f.accuracy := by
              by_contra hlt
              exact hc ⟨hft, not_le.mp hlt⟩
            exact lt_of_lt_of_le hacc hlo
          · exact hpre f hf' hft
        · simp only [selectWeakest, if_neg hc]
          exact heq

/-- New dict keys are appended behind unequal existing keys. -/
theorem addKey_cons (k p : String) (ks : List String) (h : k ≠ p) :
    addKey (k :: ks) p = k :: addKey ks p := by
  have hpk : ¬p = k := fun hpk => h hpk.symm
  by_cases hp : p ∈ ks <;> simp [addKey, hp, List.mem_cons, hpk]

/-- Updating a pillar accumulator performs dict-key insertion on the
key list: an existing key keeps its position, a new key is appended. -/
theorem updateStats_keys (l : List (String × PillarStats)) (p : String)
    (f : PillarStats → PillarStats) :
    (updateStats l p f).map (fun x => x.1) = addKey (l.map (fun x => x.1)) p := by
  induction l with
  | nil => simp [updateStats, addKey]
  | cons kv rest ih =>
    obtain ⟨k, v⟩ := kv
    by_cases hk : k = p
    · subst hk
      simp [updateStats, addKey]
    · simp only [updateStats, if_neg hk, List.map_cons, ih]
      rw [addKey_cons k p _ hk]

/-- The scoring loop transforms the stats key list by dict-key
insertion of each resolvable answer's pillar, from any starting state. -/
theorem scoring_keys_foldl (qmap : QuestionsMap) (answers : List QuestionAnswer) :
    ∀ st : ScoringState,
      (answers.foldl (scoreAnswer qmap) st).stats.map (fun x => x.1) =
        (resolvedPillars answers qmap).foldl addKey (st.stats.map (fun x => x.1)) := by
  induction answers with
  | nil => intro st; rfl
  | cons a rest ih =>
    intro st
    cases hl : List.lookup a.question_id qmap with
    | none =>
      have h1 : scoreAnswer qmap st a = st := by simp [scoreAnswer, hl]
      have h2 : resolvedPillars (a :: rest) qmap = resolvedPillars rest qmap := by
        simp [resolvedPillars, List.filterMap_cons, hl]
      rw [List.foldl_cons, h1, h2, ih st]
    | some q =>
      have h2 : resolvedPillars (a :: rest) qmap =
          q.diagnosis_pillar :: resolvedPillars rest qmap := by
        simp [resolvedPillars, List.filterMap_cons, hl]
      have h3 : (scoreAnswer qmap st a).stats.map (fun x => x.1) =
          addKey (st.stats.map (fun x => x.1)) q.diagnosis_pillar := by
        simp only [scoreAnswer, hl]
        exact updateStats_keys _ _ _
      calc ((a :: rest).foldl (scoreAnswer qmap) st).stats.map (fun x => x.1)
          = (rest.foldl (scoreAnswer qmap) (scoreAnswer qmap st a)).stats.map
              (fun x => x.1) := rfl
        _ = (resolvedPillars rest qmap).foldl addKey
              ((scoreAnswer qmap st a).stats.map (fun x => x.1)) := ih _
        _ = (resolvedPillars rest qmap).foldl addKey
              (addKey (st.stats.map (fun x => x.1)) q.diagnosis_pillar) := by rw [h3]
        _ = (resolvedPillars (a :: rest) qmap).foldl addKey
              (st.stats.map (fun x => x.1)) := by rw [h2]; rfl

/-- C2 (amended): the pillar iteration order is the canonical enum
order followed by dynamically discovered pillars in first-seen order,
and whenever some eligible breakdown entry has accuracy strictly below
100 the selection returns the first eligible entry of minimum
accuracy; ties keep the earliest entry.  (The un-amended selection
rule fails when every eligible accuracy equals 100 — see the
counterexample — in which case the default "Concept" is returned.) -/
theorem weakest_pillar_amended_spec :
    (∀ (answers : List QuestionAnswer) (qmap : QuestionsMap),
      statKeys answers qmap = (resolvedPillars answers qmap).foldl addKey canonicalPillars) ∧
    ∀ bd : List BreakdownEntry, (∃ e ∈ bd, 1 ≤ e.total ∧ e.accuracy < 100) →
      ∃ pre e post, bd = pre ++ e :: post ∧ 1 ≤ e.total ∧ e.accuracy < 100 ∧
        weakestPillar bd = e.pillar ∧
        (∀ f ∈ bd, 1 ≤ f.total → e.accuracy ≤ f.accuracy) ∧
        (∀ f ∈ pre, 1 ≤ f.total → e.accuracy < f.accuracy) := by
  constructor
  · intro answers qmap
    have h := scoring_keys_foldl qmap answers ⟨0, initPillarStats, []⟩
    have hinit : initPillarStats.map (fun x => x.1) = canonicalPillars := rfl
    simpa [statKeys, runScoring, hinit] using h
  · intro bd hex
    rcases selectWeakest_char bd "Concept" 100 with ⟨hall, _⟩ |
      ⟨pre, e, post, hsplit, ht, hacc, hpre, hpost, heq⟩
    · obtain ⟨e, he, ht, hacc⟩ := hex
      exact absurd (hall e he ht) (not_le.mpr hacc)
    · refine ⟨pre, e, post, hsplit, ht, hacc, ?_, ?_, hpre⟩
      · unfold weakestPillar
        rw [heq]
      · intro f hf hft
        rw [hsplit] at hf
        rcases List.mem_append.mp hf with hf | hf
        · exact le_of_lt (hpre f hf hft)
        · rcases List.mem_cons.mp hf with rfl | hf'
          · exact le_refl _
          · exact hpost f hf' hft

/-- Witness for the amended C2: an eligible Debugging entry with
accuracy 0 coexisting with a perfect Concept entry is selected. -/
theorem weakest_pillar_amended_spec_witness :
    (∃ e ∈ [BreakdownEntry.mk "Concept" 1 1 100 0 1, BreakdownEntry.mk "Debugging" 0 2 0 0 1],
      1 ≤ e.total ∧ e.accuracy < 100) ∧
    (∃ pre e post,
      [BreakdownEntry.mk "Concept" 1 1 100 0 1, BreakdownEntry.mk "Debugging" 0 2 0 0 1] =
        pre ++ e :: post ∧ 1 ≤ e.total ∧ e.accuracy < 100 ∧
      weakestPillar [BreakdownEntry.mk "Concept" 1 1 100 0 1,
        BreakdownEntry.mk "Debugging" 0 2 0 0 1] = e.pillar ∧
      (∀ f ∈ [BreakdownEntry.mk "Concept" 1 1 100 0 1,
        BreakdownEntry.mk "Debugging" 0 2 0 0 1], 1 ≤ f.total → e.accuracy ≤ f.accuracy) ∧
      (∀ f ∈ pre, 1 ≤ f.total → e.accuracy < f.accuracy)) :=
  ⟨by decide, weakest_pillar_amended_spec.2 _ (by decide)⟩

/-- Updating an accumulator with a total-incrementing update raises the
total sum by exactly one, whether the key existed or not. -/
theorem updateStats_sumTotals (l : List (String × PillarStats)) (p : String)
    (f : PillarStats → PillarStats) (hf : ∀ s, (f s).total = s.total + 1) :
    sumTotals (updateStats l p f) = sumTotals l + 1 := by
  induction l with
  | nil =>
    have h : (f emptyStats).total = 1 := by rw [hf emptyStats]; rfl
    simp [updateStats, sumTotals, h]
  | cons kv rest ih =>
    obtain ⟨k, v⟩ := kv
    by_cases hk : k = p
    · subst hk
      have hstep : updateStats ((k, v) :: rest) k f = (k, f v) :: rest := by
        simp [updateStats]
      rw [hstep]
      simp only [sumTotals, List.map_cons, List.sum_cons, hf v]
      ring
    · have hstep : updateStats ((k, v) :: rest) p f = (k, v) :: updateStats rest p f := by
        simp [updateStats, hk]
      rw [hstep]
      simp only [sumTotals, List.map_cons, List.sum_cons]
      have hrec := ih
      simp only [sumTotals] at hrec
      rw [hrec]
      ring

/-- From any starting state, the scoring loop adds exactly one pillar
total per resolvable answer. -/
theorem scoring_sumTotals_foldl (qmap : QuestionsMap) (answers : List QuestionAnswer) :
    ∀ st : ScoringState,
      sumTotals (answers.foldl (scoreAnswer qmap) st).stats =
        sumTotals st.stats + resolvableCount answers qmap := by
  induction answers with
  | nil => intro st; simp [resolvableCount]
  | cons a rest ih =>
    intro st
    cases hl : List.lookup a.question_id qmap with
    | none =>
      have h1 : scoreAnswer qmap st a = st := by simp [scoreAnswer, hl]
      have h2 : resolvableCount (a :: rest) qmap = resolvableCount rest qmap := by
        simp [resolvableCount, List.filter_cons, hl]
      rw [List.foldl_cons, h1, h2, ih st]
    | some q =>
      have h1 : sumTotals (scoreAnswer qmap st a).stats = sumTotals st.stats + 1 := by
        simp only [scoreAnswer, hl]
        exact updateStats_sumTotals _ _ _ (fun s => rfl)
      have h2 : resolvableCount (a :: rest) qmap = resolvableCount rest qmap + 1 := by
        simp [resolvableCount, List.filter_cons, hl]
      rw [List.foldl_cons, ih (scoreAnswer qmap st a), h1, h2]
      ring

/-- C8 (amended): an unresolvable answer is skipped and counted in no
pillar accumulator — the pillar totals sum to exactly the number of
resolvable answers — while the reported percentage keeps dividing by
the full number of submitted answers. -/
theorem pillar_totals_resolvable (answers : List QuestionAnswer) (qmap : QuestionsMap) :
    sumTotals (runScoring answers qmap).stats = resolvableCount answers qmap ∧
    (answers.length ≠ 0 →
      percentageOf answers qmap =
        ((runScoring answers qmap).score : ℚ) / (answers.length : ℚ) * 100) := by
  constructor
  · have h := scoring_sumTotals_foldl qmap answers ⟨0, initPillarStats, []⟩
    have hinit : sumTotals initPillarStats = 0 := rfl
    simpa [runScoring, hinit] using h
  · intro h
    simp [percentageOf, h]

/-- Witness for C8 at a concrete two-answer submission with one
unresolvable answer. -/
theorem pillar_totals_resolvable_witness :
    sumTotals (runScoring
      [QuestionAnswer.mk "q1" "A" 10, QuestionAnswer.mk "missing" "A" 10]
      [("q1", QuestionDoc.mk "A" "Concept" 30 ["arrays"])]).stats =
      resolvableCount
        [QuestionAnswer.mk "q1" "A" 10, QuestionAnswer.mk "missing" "A" 10]
        [("q1", QuestionDoc.mk "A" "Concept" 30 ["arrays"])] ∧
    ([QuestionAnswer.mk "q1" "A" 10, QuestionAnswer.mk "missing" "A" 10].length ≠ 0 →
      percentageOf [QuestionAnswer.mk "q1" "A" 10, QuestionAnswer.mk "missing" "A" 10]
        [("q1", QuestionDoc.mk "A" "Concept" 30 ["arrays"])] =
        ((runScoring [QuestionAnswer.mk "q1" "A" 10, QuestionAnswer.mk "missing" "A" 10]
          [("q1", QuestionDoc.mk "A" "Concept" 30 ["arrays"])]).score : ℚ) / 2 * 100) :=
  pillar_totals_resolvable _ _

/-- C8 counterexample: a submission with one correct resolvable answer
and one unresolvable answer.  The unresolvable answer is excluded from
the pillar totals (their sum is 1) but not from the percentage
denominator: the reported percentage is 50, not 100. -/
theorem percentage_denominator_cex :
    resolvableCount
      [QuestionAnswer.mk "q1" "A" 10, QuestionAnswer.mk "missing" "A" 10]
      [("q1", QuestionDoc.mk "A" "Concept" 30 ["arrays"])] = 1 ∧
    (runScoring [QuestionAnswer.mk "q1" "A" 10, QuestionAnswer.mk "missing" "A" 10]
      [("q1", QuestionDoc.mk "A" "Concept" 30 ["arrays"])]).score = 1 ∧
    percentageOf [QuestionAnswer.mk "q1" "A" 10, QuestionAnswer.mk "missing" "A" 10]
      [("q1", QuestionDoc.mk "A" "Concept" 30 ["arrays"])] = 50 := by
  refine ⟨by decide, by decide, ?_⟩
  have hscore : (runScoring [QuestionAnswer.mk "q1" "A" 10, QuestionAnswer.mk "missing" "A" 10]
      [("q1", QuestionDoc.mk "A" "Concept" 30 ["arrays"])]).score = 1 := by decide
  simp [percentageOf, hscore]
  norm_num

/-- Closed form of the query for a non-empty deduplicated tag list:
first tag, then tags two and three, then topic, pillar and the fixed
suffix. -/
theorem searchQueryOf_cons (p : String) (rest' : List String) (topic pillar aiQuery : String) :
    searchQueryOf (p :: rest') topic pillar aiQuery =
      p ++ " " ++ String.intercalate " " (rest'.take 2) ++ " " ++ topic ++ " " ++ pillar ++
        " tutorial explained step by step" := by
  have h5 : (p :: rest').take 5 = p :: rest'.take 4 := rfl
  simp only [searchQueryOf, h5]
  rw [if_pos (by simp)]
  simp only [buildSearchQuery]
  rw [List.take_take]
  norm_num

/-- C7 counterexample: with the generative service unavailable (no API
key), the fallback query is "{topic} tutorial {learner_profile}", not
the claimed plain "{topic} tutorial". -/
theorem smart_query_fallback_cex :
    smartQueryNoModel "Stack" "Rushed" = "Stack tutorial Rushed" ∧
    smartQueryNoModel "Stack" "Rushed" ≠ "Stack tutorial" := by decide

/-- C7 (amended): when at least one failed-question tag exists, the
query starts with the first tag of the set-deduplicated tag list
(whose order is unspecified), followed by at most two further tags,
then the topic name, the weakest-pillar name and a fixed suffix — tags
beyond the third never reach the query, so the query is unchanged when
the deduplicated list is cut to its first three entries.  With no
failed tags the query is the one requested from the external
generative text service. -/
theorem search_query_amended_spec (raw uniq : List String) (topic pillar aiQuery : String)
    (hdedup : isSetDedupOf uniq raw) :
    (raw ≠ [] → ∃ p rest, uniq.take 5 = p :: rest ∧
      searchQueryOf uniq topic pillar aiQuery =
        p ++ " " ++ String.intercalate " " (rest.take 2) ++ " " ++ topic ++ " " ++
          pillar ++ " tutorial explained step by step" ∧
      searchQueryOf uniq topic pillar aiQuery =
        searchQueryOf (uniq.take 3) topic pillar aiQuery) ∧
    (raw = [] → uniq = [] ∧ searchQueryOf uniq topic pillar aiQuery = aiQuery) := by
  obtain ⟨hnd, hsub, hsup⟩ := hdedup
  constructor
  · intro hraw
    have hune : uniq ≠ [] := by
      obtain ⟨t, ht⟩ := List.exists_mem_of_ne_nil raw hraw
      exact List.ne_nil_of_mem (hsup t ht)
    obtain ⟨p, rest', hcons⟩ := List.exists_cons_of_ne_nil hune
    subst hcons
    refine ⟨p, rest'.take 4, rfl, ?_, ?_⟩
    · rw [searchQueryOf_cons]
      simp [List.take_take]
    · rw [searchQueryOf_cons]
      have h3 : (p :: rest').take 3 = p :: rest'.take 2 := rfl
      rw [h3, searchQueryOf_cons]
      simp [List.take_take]
  · intro hraw
    subst hraw
    have hu : uniq = [] :=
      List.eq_nil_iff_forall_not_mem.mpr (fun t ht => List.not_mem_nil t (hsub t ht))
    subst hu
    exact ⟨rfl, by simp [searchQueryOf]⟩

/-- Witness for the amended C7: failed tags ["graphs","bfs","graphs"],
deduplicated (in one possible set order) to ["bfs","graphs"]. -/
theorem search_query_amended_spec_witness :
    isSetDedupOf ["bfs", "graphs"] ["graphs", "bfs", "graphs"] ∧
    (∃ p rest, (["bfs", "graphs"] : List String).take 5 = p :: rest ∧
      searchQueryOf ["bfs", "graphs"] "DSA" "Concept" "ai query" =
        p ++ " " ++ String.intercalate " " (rest.take 2) ++ " " ++ "DSA" ++ " " ++
          "Concept" ++ " tutorial explained step by step" ∧
      searchQueryOf ["bfs", "graphs"] "DSA" "Concept" "ai query" =
        searchQueryOf ((["bfs", "graphs"] : List String).take 3) "DSA" "Concept" "ai query") :=
  ⟨⟨by decide, by decide, by decide⟩,
   (search_query_amended_spec ["graphs", "bfs", "graphs"] ["bfs", "graphs"] "DSA" "Concept"
     "ai query" ⟨by decide, by decide, by decide⟩).1 (by decide)⟩

/-- C6: the relaxed retry is consulted exactly when the strict filtered
search returned zero results (a non-empty strict result is returned
unchanged, whatever the relaxed search would say); a successful relaxed
retry annotates precisely its top result with the relaxed-match note,
the rest staying unannotated; and two empty phases yield an empty list
rather than an error. -/
theorem relaxed_retry_spec (strict relaxed : List SearchResult)
    (hnotes : ∀ x ∈ relaxed, x.note = none) :
    (strict ≠ [] → findBestVideo strict relaxed = strict ∧
      ∀ other : List SearchResult, findBestVideo strict other = strict) ∧
    (strict = [] → relaxed = [] → findBestVideo strict relaxed = []) ∧
    (strict = [] → ∀ r rs, relaxed = r :: rs →
      findBestVideo strict relaxed = { r with note := some relaxedNote } :: rs ∧
      (findBestVideo strict relaxed).head? = some { r with note := some relaxedNote } ∧
      ∀ x ∈ rs, x.note = none) := by
  refine ⟨fun hs => ⟨?_, fun other => ?_⟩, fun hs hr => ?_, fun hs r rs hr => ?_⟩
  · simp [findBestVideo, hs]
  · simp [findBestVideo, hs]
  · simp [findBestVideo, hs, hr]
  · subst hr
    refine ⟨by simp [findBestVideo, hs], by simp [findBestVideo, hs], ?_⟩
    exact fun x hx => hnotes x (List.mem_cons_of_mem r hx)

/-- Witness for C6: an empty strict phase and a two-element relaxed
phase — only the top result carries the note. -/
theorem relaxed_retry_spec_witness :
    findBestVideo [] [SearchResult.mk "v1" "t1" 90 none, SearchResult.mk "v2" "t2" 80 none] =
      SearchResult.mk "v1" "t1" 90 (some relaxedNote) ::
        [SearchResult.mk "v2" "t2" 80 none] ∧
    (findBestVideo []
        [SearchResult.mk "v1" "t1" 90 none, SearchResult.mk "v2" "t2" 80 none]).head? =
      some (SearchResult.mk "v1" "t1" 90 (some relaxedNote)) ∧
    ∀ x ∈ [SearchResult.mk "v2" "t2" 80 none], x.note = none :=
  (relaxed_retry_spec [] [SearchResult.mk "v1" "t1" 90 none, SearchResult.mk "v2" "t2" 80 none]
    (by decide)).2.2 rfl (SearchResult.mk "v1" "t1" 90 none)
    [SearchResult.mk "v2" "t2" 80 none] rfl

/-- Keys of `seen_videos` move by dict-key insertion: an existing video
id keeps its position, a new one is appended. -/
theorem upsertBest_keys (acc : List SearchResult) (r : SearchResult) :
    (upsertBest acc r).map SearchResult.video_id =
      addKey (acc.map SearchResult.video_id) r.video_id := by
  induction acc with
  | nil => simp [upsertBest, addKey]
  | cons a rest ih =>
    by_cases ha : a.video_id = r.video_id
    · simp only [upsertBest, if_pos ha, List.map_cons]
      have hvid : (if a.relevance_percent < r.relevance_percent then r else a).video_id =
          a.video_id := by
        by_cases h : a.relevance_percent < r.relevance_percent <;> simp [h, ha]
      rw [hvid]
      have hmem : addKey (a.video_id :: rest.map SearchResult.video_id) r.video_id =
          a.video_id :: rest.map SearchResult.video_id := by
        simp [addKey, ha]
      rw [hmem]
    · simp only [upsertBest, if_neg ha, List.map_cons, ih]
      rw [addKey_cons _ _ _ ha]

/-- Entries surviving an upsert come from the accumulator or are the
new record. -/
theorem upsertBest_subset (acc : List SearchResult) (r : SearchResult) :
    ∀ x ∈ upsertBest acc r, x ∈ acc ∨ x = r := by
  induction acc with
  | nil =>
    intro x hx
    simp only [upsertBest] at hx
    rcases List.mem_cons.mp hx with hx | hx
    · exact Or.inr hx
    · exact absurd hx (List.not_mem_nil x)
  | cons a rest ih =>
    intro x hx
    by_cases ha : a.video_id = r.video_id
    · simp only [upsertBest, if_pos ha] at hx
      rcases List.mem_cons.mp hx with hx | hx
      · by_cases h : a.relevance_percent < r.relevance_percent
        · rw [if_pos h] at hx
          exact Or.inr hx
        · rw [if_neg h] at hx
          exact Or.inl (by rw [hx]; exact List.mem_cons_self a rest)
      · exact Or.inl (List.mem_cons_of_mem a hx)
    · simp only [upsertBest, if_neg ha] at hx
      rcases List.mem_cons.mp hx with hx | hx
      · exact Or.inl (by rw [hx]; exact List.mem_cons_self a rest)
      · rcases ih x hx with h | h
        · exact Or.inl (List.mem_cons_of_mem a h)
        · exact Or.inr h

/-- Accumulator entries for a different video id survive an upsert. -/
theorem mem_upsertBest_of_ne (acc : List SearchResult) (r : SearchResult) :
    ∀ x ∈ acc, x.video_id ≠ r.video_id → x ∈ upsertBest acc r := by
  induction acc with
  | nil => intro x hx _; exact absurd hx (List.not_mem_nil x)
  | cons a rest ih =>
    intro x hx hne
    by_cases ha : a.video_id = r.video_id
    · simp only [upsertBest, if_pos ha]
      rcases List.mem_cons.mp hx with rfl | hx'
      · exact absurd ha hne
      · exact List.mem_cons_of_mem _ hx'
    · simp only [upsertBest, if_neg ha]
      rcases List.mem_cons.mp hx with rfl | hx'
      · exact List.mem_cons_self _ _
      · exact List.mem_cons_of_mem _ (ih x hx' hne)

/-- After an upsert the accumulator holds an entry for the new record's
video id whose relevance is at least the new record's. -/
theorem upsertBest_slot (acc : List SearchResult) (r : SearchResult) :
    ∃ x ∈ upsertBest acc r, x.video_id = r.video_id ∧
      r.relevance_percent ≤ x.relevance_percent := by
  induction acc with
  | nil => exact ⟨r, by simp [upsertBest], rfl, le_refl _⟩
  | cons a rest ih =>
    by_cases ha : a.video_id = r.video_id
    · by_cases h : a.relevance_percent < r.relevance_percent
      · refine ⟨r, ?_, rfl, le_refl _⟩
        simp only [upsertBest, if_pos ha, if_pos h]
        exact List.mem_cons_self r rest
      · refine ⟨a, ?_, ha, not_lt.mp h⟩
        simp only [upsertBest, if_pos ha, if_neg h]
        exact List.mem_cons_self a rest
    · obtain ⟨x, hx, hvid, hrel⟩ := ih
      refine ⟨x, ?_, hvid, hrel⟩
      simp only [upsertBest, if_neg ha]
      exact List.mem_cons_of_mem a hx

/-- With duplicate-free keys, every survivor of an upsert either was
already present (and, if it owns the new record's id, dominates it) or
is the new record dominating everything it replaced. -/
theorem upsertBest_cases (acc : List SearchResult) (r : SearchResult) :
    (acc.map SearchResult.video_id).Nodup →
    ∀ x ∈ upsertBest acc r,
      (x ∈ acc ∧ (x.video_id = r.video_id → r.relevance_percent ≤ x.relevance_percent)) ∨
      (x = r ∧ ∀ a ∈ acc, a.video_id = r.video_id →
        a.relevance_percent ≤ r.relevance_percent) := by
  induction acc with
  | nil =>
    intro _ x hx
    simp only [upsertBest] at hx
    rcases List.mem_cons.mp hx with rfl | hx
    · exact Or.inr ⟨rfl, by simp⟩
    · exact absurd hx (List.not_mem_nil x)
  | cons a rest ih =>
    intro hnd x hx
    rw [List.map_cons, List.nodup_cons] at hnd
    obtain ⟨hnm, hndr⟩ := hnd
    by_cases ha : a.video_id = r.video_id
    · simp only [upsertBest, if_pos ha] at hx
      rcases List.mem_cons.mp hx with hx | hx
      · by_cases h : a.relevance_percent < r.relevance_percent
        · rw [if_pos h] at hx
          subst hx
          refine Or.inr ⟨rfl, ?_⟩
          intro b hb hbvid
          rcases List.mem_cons.mp hb with rfl | hb'
          · exact le_of_lt h
          · have hbm : b.video_id ∈ rest.map SearchResult.video_id :=
              List.mem_map_of_mem _ hb'
            rw [hbvid, ← ha] at hbm
            exact absurd hbm hnm
        · rw [if_neg h] at hx
          subst hx
          exact Or.inl ⟨List.mem_cons_self _ _, fun _ => not_lt.mp h⟩
      · refine Or.inl ⟨List.mem_cons_of_mem a hx, ?_⟩
        intro hvid
        have hxm : x.video_id ∈ rest.map SearchResult.video_id :=
          List.mem_map_of_mem _ hx
        rw [hvid, ← ha] at hxm
        exact absurd hxm hnm
    · simp only [upsertBest, if_neg ha] at hx
      rcases List.mem_cons.mp hx with rfl | hx
      · exact Or.inl ⟨List.mem_cons_self _ _, fun hvid => absurd hvid ha⟩
      · rcases ih hndr x hx with ⟨hxm, hdom⟩ | ⟨rfl, hall⟩
        · exact Or.inl ⟨List.mem_cons_of_mem a hxm, hdom⟩
        · refine Or.inr ⟨rfl, ?_⟩
          intro b hb hbvid
          rcases List.mem_cons.mp hb with rfl | hb'
          · exact absurd hbvid ha
          · exact hall b hb' hbvid

/-- Loop invariant of the deduplication pass over the processed prefix
`done`: keys are duplicate-free, every accumulator entry is a processed
record dominating all processed records of its video id, and every
processed video id is represented. -/
def DedupInv (done acc : List SearchResult) : Prop :=
  (acc.map SearchResult.video_id).Nodup ∧
  (∀ x ∈ acc, x ∈ done ∧ ∀ s ∈ done, s.video_id = x.video_id →
    s.relevance_percent ≤ x.relevance_percent) ∧
  (∀ s ∈ done, ∃ x ∈ acc, x.video_id = s.video_id)

/-- The invariant is preserved by one deduplication step. -/
theorem dedupInv_step (done acc : List SearchResult) (r : SearchResult)
    (h : DedupInv done acc) : DedupInv (done ++ [r]) (upsertBest acc r) := by
  obtain ⟨hnd, hdom, hcov⟩ := h
  refine ⟨?_, ?_, ?_⟩
  · rw [upsertBest_keys]
    unfold addKey
    split
    · exact hnd
    next hmem =>
      rw [List.nodup_append]
      refine ⟨hnd, List.nodup_singleton _, fun b hb hbv => ?_⟩
      have hb' : b = r.video_id := by simpa using hbv
      subst hb'
      exact hmem hb
  · intro x hx
    rcases upsertBest_cases acc r hnd x hx with ⟨hxm, hdomr⟩ | ⟨hxr, hall⟩
    · obtain ⟨hxdone, hxdom⟩ := hdom x hxm
      refine ⟨List.mem_append_left _ hxdone, ?_⟩
      intro s hs hvid
      rcases List.mem_append.mp hs with hs | hs
      · exact hxdom s hs hvid
      · have hsr : s = r := by simpa using hs
        subst hsr
        exact hdomr hvid.symm
    · rw [hxr]
      refine ⟨List.mem_append_right _ (by simp), ?_⟩
      intro s hs hvid
      rcases List.mem_append.mp hs with hs | hs
      · obtain ⟨y, hy, hyvid⟩ := hcov s hs
        have hsy : s.relevance_percent ≤ y.relevance_percent :=
          (hdom y hy).2 s hs hyvid.symm
        have hyr : y.relevance_percent ≤ r.relevance_percent :=
          hall y hy (by rw [hyvid, hvid])
        exact le_trans hsy hyr
      · have hsr : s = r := by simpa using hs
        subst hsr
        exact le_refl _
  · intro s hs
    rcases List.mem_append.mp hs with hs | hs
    · obtain ⟨y, hy, hyvid⟩ := hcov s hs
      by_cases hv : y.video_id = r.video_id
      · obtain ⟨x, hx, hxvid, _⟩ := upsertBest_slot acc r
        exact ⟨x, hx, by rw [hxvid, ← hv, hyvid]⟩
      · exact ⟨y, mem_upsertBest_of_ne acc r y hy hv, hyvid⟩
    · have hsr : s = r := by simpa using hs
      rw [hsr]
      obtain ⟨x, hx, hxvid, _⟩ := upsertBest_slot acc r
      exact ⟨x, hx, hxvid⟩

/-- The invariant carries through the whole fold. -/
theorem dedupInv_foldl (l : List SearchResult) :
    ∀ done acc, DedupInv done acc → DedupInv (done ++ l) (l.foldl upsertBest acc) := by
  induction l with
  | nil => intro done acc h; simpa using h
  | cons r rest ih =>
    intro done acc h
    have h2 := ih (done ++ [r]) (upsertBest acc r) (dedupInv_step done acc r h)
    simpa [List.append_assoc] using h2

/-- The deduplication pass satisfies its invariant over the whole
input. -/
theorem dedupByVideo_inv (l : List SearchResult) : DedupInv l (dedupByVideo l) := by
  have hbase : DedupInv [] [] := ⟨by simp, by simp, by simp⟩
  have h := dedupInv_foldl l [] [] hbase
  simpa [dedupByVideo] using h

/-- C4: the deduplicated, sorted recommendation list has no two entries
with the same parent video id; every output entry is an input chunk
whose relevance is maximal among the input chunks of its video id;
every input video id is still represented; and the list is sorted by
descending relevance. -/
theorem dedup_keeps_best_sorted (l : List SearchResult) :
    ((dedupAndSort l).map SearchResult.video_id).Nodup ∧
    List.Sorted relOrder (dedupAndSort l) ∧
    (∀ x ∈ dedupAndSort l, x ∈ l ∧ ∀ s ∈ l, s.video_id = x.video_id →
      s.relevance_percent ≤ x.relevance_percent) ∧
    (∀ s ∈ l, ∃ x ∈ dedupAndSort l, x.video_id = s.video_id) := by
  obtain ⟨hnd, hdom, hcov⟩ := dedupByVideo_inv l
  have hperm : (dedupAndSort l).Perm (dedupByVideo l) :=
    List.perm_insertionSort relOrder (dedupByVideo l)
  refine ⟨?_, ?_, ?_, ?_⟩
  · exact (hperm.map SearchResult.video_id).nodup_iff.mpr hnd
  · exact List.sorted_insertionSort relOrder (dedupByVideo l)
  · intro x hx
    exact hdom x (hperm.subset hx)
  · intro s hs
    obtain ⟨x, hx, hvid⟩ := hcov s hs
    exact ⟨x, hperm.mem_iff.mpr hx, hvid⟩

/-- One upsert grows the accumulator by at most one entry. -/
theorem upsertBest_length (acc : List SearchResult) (r : SearchResult) :
    (upsertBest acc r).length ≤ acc.length + 1 := by
  induction acc with
  | nil => simp [upsertBest]
  | cons a rest ih =>
    by_cases ha : a.video_id = r.video_id
    · simp only [upsertBest, if_pos ha, List.length_cons]
      omega
    · simp only [upsertBest, if_neg ha, List.length_cons]
      omega

/-- The deduplication fold emits at most one entry per input chunk. -/
theorem dedup_foldl_length (l : List SearchResult) :
    ∀ acc, (l.foldl upsertBest acc).length ≤ acc.length + l.length := by
  induction l with
  | nil => intro acc; simp
  | cons r rest ih =>
    intro acc
    have h1 := ih (upsertBest acc r)
    have h2 := upsertBest_length acc r
    simp only [List.foldl_cons, List.length_cons]
    omega

/-- C5 (amended): no truncation is applied after deduplication — the
list returned by find_best_video is the full deduplicated set, bounded
only by the number of fetched raw chunks (at most the 50 requested
from the vector index), not by 9. -/
theorem dedup_output_le_fetched (l : List SearchResult) :
    (dedupAndSort l).length ≤ l.length := by
  have hperm : (dedupAndSort l).Perm (dedupByVideo l) :=
    List.perm_insertionSort relOrder (dedupByVideo l)
  rw [hperm.length_eq]
  have h := dedup_foldl_length l []
  simpa [dedupByVideo] using h

/-- C5 counterexample: ten raw chunks with ten distinct parent video
ids — well within the 50-chunk over-fetch — deduplicate to a
ten-element result list, which exceeds the claimed cap of 9. -/
theorem no_truncation_to_nine_cex :
    (dedupAndSort
      [SearchResult.mk "v1" "t" 99 none, SearchResult.mk "v2" "t" 98 none,
       SearchResult.mk "v3" "t" 97 none, SearchResult.mk "v4" "t" 96 none,
       SearchResult.mk "v5" "t" 95 none, SearchResult.mk "v6" "t" 94 none,
       SearchResult.mk "v7" "t" 93 none, SearchResult.mk "v8" "t" 92 none,
       SearchResult.mk "v9" "t" 91 none, SearchResult.mk "v10" "t" 90 none]).length = 10 ∧
    ([SearchResult.mk "v1" "t" 99 none, SearchResult.mk "v2" "t" 98 none,
      SearchResult.mk "v3" "t" 97 none, SearchResult.mk "v4" "t" 96 none,
      SearchResult.mk "v5" "t" 95 none, SearchResult.mk "v6" "t" 94 none,
      SearchResult.mk "v7" "t" 93 none, SearchResult.mk "v8" "t" 92 none,
      SearchResult.mk "v9" "t" 91 none, SearchResult.mk "v10" "t" 90 none]).length ≤ 50 ∧
    9 < (dedupAndSort
      [SearchResult.mk "v1" "t" 99 none, SearchResult.mk "v2" "t" 98 none,
       SearchResult.mk "v3" "t" 97 none, SearchResult.mk "v4" "t" 96 none,
       SearchResult.mk "v5" "t" 95 none, SearchResult.mk "v6" "t" 94 none,
       SearchResult.mk "v7" "t" 93 none, SearchResult.mk "v8" "t" 92 none,
       SearchResult.mk "v9" "t" 91 none, SearchResult.mk "v10" "t" 90 none]).length := by
  refine ⟨?_, by decide, ?_⟩ <;> decide

/-- Invariant of the chunker loop: every finalized chunk has text of at
least the minimum length, chunk start offsets are pairwise
non-decreasing, and no finalized chunk starts after the in-progress
chunk. -/
def ChunkInv (st : List TChunk × CurChunk) : Prop :=
  (∀ c ∈ st.1, MIN_CHUNK_TEXT_LENGTH ≤ c.text_content.length) ∧
  List.Pairwise (fun a b : TChunk => a.start_time ≤ b.start_time) st.1 ∧
  ∀ c ∈ st.1, c.start_time ≤ st.2.start_time

/-- Zeta-reduced form of one chunker step. -/
theorem chunkStep_eq (css : ℚ) (st : List TChunk × CurChunk) (seg : TSegment) :
    chunkStep css st seg =
      if css ≤ (seg.start + seg.duration) - st.2.start_time then
        (if MIN_CHUNK_TEXT_LENGTH ≤
            (String.intercalate " " (st.2.segments ++ [seg.text.trim])).length
         then st.1 ++ [⟨st.2.start_time, seg.start + seg.duration,
            String.intercalate " " (st.2.segments ++ [seg.text.trim]),
            (seg.start + seg.duration) - st.2.start_time⟩]
         else st.1,
         ⟨seg.start + seg.duration, seg.start + seg.duration, []⟩)
      else (st.1, ⟨st.2.start_time, seg.start + seg.duration,
        st.2.segments ++ [seg.text.trim]⟩) := rfl

/-- One chunker step preserves the invariant whenever the chunk window
is non-negative. -/
theorem chunkStep_inv (css : ℚ) (hcss : 0 ≤ css) (st : List TChunk × CurChunk)
    (seg : TSegment) (h : ChunkInv st) : ChunkInv (chunkStep css st seg) := by
  obtain ⟨hlen, hpw, hle⟩ := h
  rw [chunkStep_eq]
  by_cases hdur : css ≤ (seg.start + seg.duration) - st.2.start_time
  · rw [if_pos hdur]
    have hstart : st.2.start_time ≤ seg.start + seg.duration := by linarith
    by_cases hl : MIN_CHUNK_TEXT_LENGTH ≤
        (String.intercalate " " (st.2.segments ++ [seg.text.trim])).length
    · rw [if_pos hl]
      refine ⟨?_, ?_, ?_⟩
      · intro c hc
        rcases List.mem_append.mp hc with hc | hc
        · exact hlen c hc
        · rw [List.mem_singleton] at hc
          rw [hc]
          exact hl
      · rw [List.pairwise_append]
        refine ⟨hpw, List.pairwise_singleton _ _, ?_⟩
        intro a ha b hb
        rw [List.mem_singleton] at hb
        rw [hb]
        exact hle a ha
      · intro c hc
        rcases List.mem_append.mp hc with hc | hc
        · exact le_trans (hle c hc) hstart
        · rw [List.mem_singleton] at hc
          rw [hc]
          exact hstart
    · rw [if_neg hl]
      exact ⟨hlen, hpw, fun c hc => le_trans (hle c hc) hstart⟩
  · rw [if_neg hdur]
    exact ⟨hlen, hpw, hle⟩

/-- The invariant carries through the whole chunker loop. -/
theorem chunkFold_inv (css : ℚ) (hcss : 0 ≤ css) (l : List TSegment) :
    ∀ st, ChunkInv st → ChunkInv (l.foldl (chunkStep css) st) := by
  induction l with
  | nil => intro st h; exact h
  | cons seg rest ih =>
    intro st h
    exact ih _ (chunkStep_inv css hcss st seg h)

/-- The final flush keeps the minimum-length and sortedness
guarantees. -/
theorem flushChunks_spec (res : List TChunk × CurChunk) (h : ChunkInv res) :
    (∀ c ∈ flushChunks res, MIN_CHUNK_TEXT_LENGTH ≤ c.text_content.length) ∧
    List.Pairwise (fun a b : TChunk => a.start_time ≤ b.start_time) (flushChunks res) := by
  obtain ⟨hlen, hpw, hle⟩ := h
  unfold flushChunks
  by_cases hseg : res.2.segments ≠ []
  · rw [if_pos hseg]
    by_cases hl : MIN_CHUNK_TEXT_LENGTH ≤ (String.intercalate " " res.2.segments).length
    · rw [if_pos hl]
      constructor
      · intro c hc
        rcases List.mem_append.mp hc with hc | hc
        · exact hlen c hc
        · rw [List.mem_singleton] at hc
          rw [hc]
          exact hl
      · rw [List.pairwise_append]
        refine ⟨hpw, List.pairwise_singleton _ _, ?_⟩
        intro a ha b hb
        rw [List.mem_singleton] at hb
        rw [hb]
        exact hle a ha
    · rw [if_neg hl]
      exact ⟨hlen, hpw⟩
  · rw [if_neg hseg]
    exact ⟨hlen, hpw⟩

/-- C9: for a transcript whose segments are ordered by start offset and
a non-negative chunk window, no emitted chunk has text shorter than the
50-character minimum, and the emitted start offsets are monotonically
non-decreasing. -/
theorem chunker_min_length_mono (transcript_list : List TSegment)
    (chunk_size_minutes : ℚ)
    (hord : List.Chain' (fun a b : TSegment => a.start ≤ b.start) transcript_list)
    (hm : 0 ≤ chunk_size_minutes) :
    (∀ c ∈ chunk_transcript transcript_list chunk_size_minutes,
      MIN_CHUNK_TEXT_LENGTH ≤ c.text_content.length) ∧
    List.Pairwise (fun a b : TChunk => a.start_time ≤ b.start_time)
      (chunk_transcript transcript_list chunk_size_minutes) := by
  cases transcript_list with
  | nil => exact ⟨by simp [chunk_transcript], by simp [chunk_transcript]⟩
  | cons s0 rest =>
    have hcss : 0 ≤ chunk_size_minutes * 60 := mul_nonneg hm (by norm_num)
    have hbase : ChunkInv ([], ⟨s0.start, 0, []⟩) := ⟨by simp, by simp, by simp⟩
    have hinv := chunkFold_inv (chunk_size_minutes * 60) hcss (s0 :: rest)
      ([], ⟨s0.start, 0, []⟩) hbase
    exact flushChunks_spec _ hinv

/-- Witness for C9: two ordered five-minute segments with 60-character
texts produce chunks meeting both guarantees. -/
theorem chunker_min_length_mono_witness :
    List.Chain' (fun a b : TSegment => a.start ≤ b.start)
      [TSegment.mk "aaaaaaaaaaaaaaaaaaaaaaaaaaaaaaaaaaaaaaaaaaaaaaaaaaaaaaaaaaaa" 0 301,
       TSegment.mk "bbbbbbbbbbbbbbbbbbbbbbbbbbbbbbbbbbbbbbbbbbbbbbbbbbbbbbbbbbbb" 301 301] ∧
    (0:ℚ) ≤ 5 ∧
    ((∀ c ∈ chunk_transcript
      [TSegment.mk "aaaaaaaaaaaaaaaaaaaaaaaaaaaaaaaaaaaaaaaaaaaaaaaaaaaaaaaaaaaa" 0 301,
       TSegment.mk "bbbbbbbbbbbbbbbbbbbbbbbbbbbbbbbbbbbbbbbbbbbbbbbbbbbbbbbbbbbb" 301 301] 5,
      MIN_CHUNK_TEXT_LENGTH ≤ c.text_content.length) ∧
    List.Pairwise (fun a b : TChunk => a.start_time ≤ b.start_time)
      (chunk_transcript
        [TSegment.mk "aaaaaaaaaaaaaaaaaaaaaaaaaaaaaaaaaaaaaaaaaaaaaaaaaaaaaaaaaaaa" 0 301,
         TSegment.mk "bbbbbbbbbbbbbbbbbbbbbbbbbbbbbbbbbbbbbbbbbbbbbbbbbbbbbbbbbbbb" 301 301] 5)) :=
  ⟨by norm_num [List.chain'_cons], by decide,
   chunker_min_length_mono _ 5 (by norm_num [List.chain'_cons]) (by decide)⟩
